import Mathlib

/-!
# Verification of the chapter-splitting pipeline

Shallow embedding of `auto_split_yt_video.py` and `gui_split.py`
(YouTube chapter splitter: a CLI script and a Qt GUI sharing the same
segmentation, file-resolution, progress-parsing and naming logic).

Modelling conventions:
* Python strings are embedded as `List Char` (`Str`).
* Python floats are modelled as exact rationals `ℚ`; the builtin
  `float(str)` parser is modelled by `pyFloat`, which accepts the
  finite decimal literal forms (optional surrounding whitespace,
  optional sign, integer/fraction digits, optional exponent).  The
  special literals `inf`/`nan` and digit-group underscores are treated
  as unparsable; no claim below depends on them.
* Python's `\w` regex class and `str.strip()` whitespace are modelled
  over ASCII; every concrete input appearing in a claim is ASCII.
* Exceptions are modelled with `Option`/`Except`: a `try` body whose
  float conversions fail propagates `none`, and the `except ValueError`
  handler turns that into the fallback value, exactly as in the source.
-/

abbrev Str := List Char

/-- ASCII whitespace, as stripped by Python's `str.strip()` / `float()`. -/
def isSpaceChar (c : Char) : Bool :=
  c = ' ' ∨ c = '\t' ∨ c = '\n' ∨ c = '\r' ∨ c = '\x0b' ∨ c = '\x0c'

def isDigitChar (c : Char) : Bool :=
  '0' ≤ c ∧ c ≤ '9'

/-- Strip leading and trailing whitespace (Python `str.strip()`). -/
def stripWS (s : Str) : Str :=
  ((s.dropWhile isSpaceChar).reverse.dropWhile isSpaceChar).reverse

/-- Python `str.split(sep)` for a one-character separator. -/
def splitCh (sep : Char) : Str → List Str
  | [] => [[]]
  | c :: cs =>
    if c = sep then [] :: splitCh sep cs
    else
      match splitCh sep cs with
      | [] => [[c]]
      | p :: ps => (c :: p) :: ps

/-- Numeric value of a decimal digit character. -/
def digVal (c : Char) : Nat := c.toNat - '0'.toNat

/-- Value of a decimal digit string (most significant digit first). -/
def natOfDigits (s : Str) : Nat :=
  s.foldl (fun a c => 10 * a + digVal c) 0

def digitChar (d : Nat) : Char := Char.ofNat ('0'.toNat + d)

/-- Digit recursion with explicit fuel (structural, so the kernel can
evaluate it); `fuel > n` always suffices since `n / 10 < n`. -/
def natToDigitsAux : Nat → Nat → Str
  | 0, _ => []
  | fuel + 1, n =>
    if n < 10 then [digitChar n]
    else natToDigitsAux fuel (n / 10) ++ [digitChar (n % 10)]

/-- Decimal representation of a natural number (Python `str(n)` / `"%d"`). -/
def natToDigits (n : Nat) : Str := natToDigitsAux (n + 1) n

/-- Python's `f"{n:02d}"` on a natural number: pad with a zero to width 2. -/
def pad2 (n : Nat) : Str :=
  if n < 10 then '0' :: natToDigits n else natToDigits n

/-- Python's `f"{i:02d}"` on an integer (sign counts toward the width). -/
def intPad2 (i : Int) : Str :=
  if 0 ≤ i then pad2 i.toNat else '-' :: natToDigits i.natAbs

/-- Optional sign in a float literal, as a rational factor. -/
def readSign : Str → ℚ × Str
  | '+' :: t => (1, t)
  | '-' :: t => (-1, t)
  | s => (1, s)

/-- Optional sign in a float exponent, as an integer factor. -/
def readSignInt : Str → Int × Str
  | '+' :: t => (1, t)
  | '-' :: t => (-1, t)
  | s => (1, s)

/-- Exponent part of a float literal: empty, or `e`/`E`, optional sign,
one or more digits consuming the rest of the string. -/
def readExp : Str → Option Int
  | [] => some 0
  | e :: t =>
    if e = 'e' ∨ e = 'E' then
      let p := readSignInt t
      let ds := p.2.takeWhile isDigitChar
      let rest := p.2.dropWhile isDigitChar
      if ds = [] ∨ rest ≠ [] then none
      else some (p.1 * (natOfDigits ds : Int))
    else none

/-- Python's builtin `float(s)` on finite decimal literals, exactly:
`none` models a raised `ValueError`. -/
def pyFloat (s0 : Str) : Option ℚ :=
  let s1 := stripWS s0
  let p := readSign s1
  let intD := p.2.takeWhile isDigitChar
  let s3 := p.2.dropWhile isDigitChar
  match s3 with
  | '.' :: s4 =>
    let fracD := s4.takeWhile isDigitChar
    let s5 := s4.dropWhile isDigitChar
    if intD = [] ∧ fracD = [] then none
    else (readExp s5).map (fun e =>
      p.1 * ((natOfDigits intD : ℚ) + (natOfDigits fracD : ℚ) / 10 ^ fracD.length) * (10 : ℚ) ^ e)
  | _ =>
    if intD = [] then none
    else (readExp s3).map (fun e => p.1 * (natOfDigits intD : ℚ) * (10 : ℚ) ^ e)

/-- `gui_split.py` `parse_time`: convert `HH:MM:SS`, `MM:SS` or a plain
number string to (exact) seconds; any `ValueError` is caught and gives
`0.0`. -/
def parse_time (time_str : Str) : ℚ :=
  if time_str = [] then 0
  else
    let parts := splitCh ':' (stripWS time_str)
    if parts.length = 3 then
      match pyFloat (parts.getD 0 []), pyFloat (parts.getD 1 []), pyFloat (parts.getD 2 []) with
      | some a, some b, some c => a * 3600 + b * 60 + c
      | _, _, _ => 0
    else if parts.length = 2 then
      match pyFloat (parts.getD 0 []), pyFloat (parts.getD 1 []) with
      | some a, some b => a * 60 + b
      | _, _ => 0
    else (pyFloat time_str).getD 0

/-- Python float `a % b` for `b > 0` (sign follows the divisor). -/
def pyMod (a b : ℚ) : ℚ := a - b * ⌊a / b⌋

/-- `gui_split.py` `format_seconds`: seconds to `HH:MM:SS`. -/
def format_seconds (secs : ℚ) : Str :=
  let hrs : Int := ⌊secs / 3600⌋
  let mins : Int := ⌊pyMod secs 3600 / 60⌋
  let s : Int := ⌊pyMod secs 60⌋
  intPad2 hrs ++ (':' :: (intPad2 mins ++ (':' :: intPad2 s)))

/-! ## Chapter metadata and the segment planner -/

structure Chapter where
  start_time : ℚ
  title : Str
deriving DecidableEq, Repr

structure Segment where
  start : ℚ
  length : ℚ
  title : Str
deriving DecidableEq, Repr

/-- The chapter split loop of `auto_split_yt_video.py` (lines 85-93) and
`AutoSplitApp.start_process`/`on_metadata_fetched`: for chapter `i`,
`start = chapters[i].start_time`,
`end = chapters[i+1].start_time` if a next chapter exists else `duration`,
`length = end - start`.  No validation is performed anywhere. -/
def planSegs : List Chapter → ℚ → List Segment
  | [], _ => []
  | [c], d => [⟨c.start_time, d - c.start_time, c.title⟩]
  | c :: c2 :: r, d => ⟨c.start_time, c2.start_time - c.start_time, c.title⟩ :: planSegs (c2 :: r) d

/-- The half-open time interval a segment extracts. -/
def segIco (s : Segment) : Set ℚ := Set.Ico s.start (s.start + s.length)

/-- Union of the segments' intervals. -/
def segsUnion (l : List Segment) : Set ℚ :=
  l.foldr (fun s acc => segIco s ∪ acc) ∅

/-! ## Filename sanitization and output naming -/

/-- The characters removed by `clean_filename` (`re.sub(r'[\\/:*?"<>|]', '', text)`). -/
def isBadFnameChar (c : Char) : Bool :=
  c = '\\' ∨ c = '/' ∨ c = ':' ∨ c = '*' ∨ c = '?' ∨ c = '"' ∨ c = '<' ∨ c = '>' ∨ c = '|'

/-- `auto_split_yt_video.py` `clean_filename` (also inlined at
`gui_split.py` line 460): remove the forbidden characters, strip
surrounding whitespace, then replace spaces with underscores. -/
def clean_filename (text : Str) : Str :=
  (stripWS (text.filter (fun c => ¬ isBadFnameChar c))).map
    (fun c => if c = ' ' then '_' else c)

/-- Output filename `f"{i+1:02d}_{title}{video_ext}"` for the 0-based
chapter index `i`, where `title` has already been cleaned. -/
def outputName (i : Nat) (cleanedTitle : Str) (ext : Str) : Str :=
  pad2 (i + 1) ++ '_' :: cleanedTitle ++ ext

/-- Sanitization as the specification words it: remove every occurrence
of the forbidden characters and replace spaces with underscores (no
whitespace trimming).  Kept separate from `clean_filename` so the two
can be compared. -/
def sanitizeSpec (text : Str) : Str :=
  (text.filter (fun c => ¬ isBadFnameChar c)).map
    (fun c => if c = ' ' then '_' else c)

/-! ## Raw metadata, the CLI validation and the GUI pipeline -/

/-- The fields of the yt-dlp metadata document that the segmentation
logic reads.  `none` models an absent key (`data.get(...)` gives `None`). -/
structure RawMeta where
  chapters : Option (List Chapter)
  duration : Option ℚ
deriving DecidableEq, Repr

inductive CliError where
  | noChapters
  | noDuration
deriving DecidableEq, Repr

/-- The metadata checks of `auto_split_yt_video.py` (lines 71-82):
`if not chapters: sys.exit(1)` (missing key or empty list), then
`if not duration: sys.exit(...)` (missing key or zero). -/
def cliValidate (m : RawMeta) : Except CliError (List Chapter × ℚ) :=
  let chs := m.chapters.getD []
  if chs = [] then .error .noChapters
  else
    match m.duration with
    | none => .error .noDuration
    | some d => if d = 0 then .error .noDuration else .ok (chs, d)

/-- One row of the GUI chapter table: title text, start text, end text. -/
structure GRow where
  title : Str
  startS : Str
  endS : Str
deriving DecidableEq, Repr

/-- `AutoSplitApp.add_row`: the start and end times are rendered through
`format_seconds` into the table cells. -/
def add_row (title : Str) (start e : ℚ) : GRow :=
  ⟨title, format_seconds start, format_seconds e⟩

/-- The chapter rows built by `on_metadata_fetched` when chapters exist:
end of row `i` is the next chapter's start, or the duration for the last. -/
def metaRows : List Chapter → ℚ → List GRow
  | [], _ => []
  | [c], d => [add_row c.title c.start_time d]
  | c :: c2 :: r, d => add_row c.title c.start_time c2.start_time :: metaRows (c2 :: r) d

/-- `AutoSplitApp.on_metadata_fetched` (lines 767-812), chapter-table
part: `duration = data.get('duration', 0)`;
`chapters = data.get('chapters', [])`; if chapters are present each
becomes a row, otherwise a single `"Full Video"` row spanning
`[0, duration)` is added. -/
def on_metadata_rows (m : RawMeta) : List GRow :=
  let duration := m.duration.getD 0
  match m.chapters.getD [] with
  | [] => [add_row (String.toList "Full Video") 0 duration]
  | c :: r => metaRows (c :: r) duration

/-- A chapter dict as `start_process` hands it to `ProcessWorker`:
title, start_time, and length = end - start. -/
structure GChapter where
  title : Str
  start_time : ℚ
  length : ℚ
deriving DecidableEq, Repr

/-- `AutoSplitApp.start_process` (lines 869-878): each table row is read
back with `parse_time` and turned into a chapter dict with
`length = end - start`. -/
def start_process_chapters (rows : List GRow) : List GChapter :=
  rows.map (fun r => ⟨r.title, parse_time r.startS, parse_time r.endS - parse_time r.startS⟩)

/-! ## File resolver (`ProcessWorker.find_video_file`) -/

/-- One directory entry: name, whether it is a regular file, and its
modification time (`st_mtime`). -/
structure DirEntry where
  name : Str
  isFile : Bool
  mtime : Int
deriving DecidableEq, Repr

/-- Recognized video container suffixes (`VIDEO_EXTS`). -/
def VIDEO_EXTS : List Str :=
  [String.toList ".mp4", String.toList ".mkv", String.toList ".webm"]

/-- Index of the last `'.'` in a name, if any. -/
def lastDotPos (s : Str) : Option Nat :=
  let tail := s.reverse.takeWhile (fun c => ¬ (c = '.'))
  if tail.length = s.length then none
  else some (s.length - tail.length - 1)

/-- `pathlib.PurePath.stem`: the final component without its suffix.
A suffix exists only when the last dot is neither the first nor the
last character. -/
def pyStem (name : Str) : Str :=
  match lastDotPos name with
  | some i => if 0 < i ∧ i < name.length - 1 then name.take i else name
  | none => name

/-- `pathlib.PurePath.suffix`. -/
def pySuffix (name : Str) : Str :=
  match lastDotPos name with
  | some i => if 0 < i ∧ i < name.length - 1 then name.drop i else []
  | none => []

/-- Python's `\w` over ASCII: letters, digits, underscore. -/
def isWordChar (c : Char) : Bool := c.isAlphanum ∨ c = '_'

/-- `find_video_file`'s local `clean_name`: stem of the name with every
non-word character removed, lowercased; empty input gives the empty key. -/
def clean_name (name : Str) : Str :=
  if name = [] then []
  else ((pyStem name).filter isWordChar).map Char.toLower

/-- Remove the leading `needle.length` characters of `hay` when they
equal `needle`. -/
def dropLit : Str → Str → Option Str
  | [], s => some s
  | _, [] => none
  | c :: w, d :: s => if c = d then dropLit w s else none

/-- Python's substring test `needle in hay`. -/
def strIn (needle hay : Str) : Bool :=
  if (dropLit needle hay).isSome then true
  else
    match hay with
    | [] => false
    | _ :: t => strIn needle t

/-- Does the file name carry a recognized video-container suffix
(`f.suffix.lower() in VIDEO_EXTS`)? -/
def isVideoSuffix (name : Str) : Bool :=
  VIDEO_EXTS.any (fun e => (pySuffix name).map Char.toLower == e)

/-- One tier of the fuzzy comparison (`target_base and (target_base in
f_clean or f_clean in target_base)`): the key must be non-empty (Python
truthiness) and the two normalized keys must be comparable by
containment in either direction. -/
def tierMatch (key f_clean : Str) : Bool :=
  !key.isEmpty && (strIn key f_clean || strIn f_clean key)

/-- Candidacy test of the fuzzy scan, per file: a regular file with a
recognized suffix whose normalized key matches the expected-name tier
or, failing that, the title-hint tier (`if ...: append  elif ...:
append` collapses to a disjunction). -/
def isCandidate (target_base hint_base : Str) (f : DirEntry) : Bool :=
  f.isFile && isVideoSuffix f.name &&
    (tierMatch target_base (clean_name f.name) || tierMatch hint_base (clean_name f.name))

/-- Python's `max(candidates, key=mtime)`: the first entry with maximal
modification time (later entries replace only on strictly greater key). -/
def maxByMtime : List DirEntry → Option DirEntry
  | [] => none
  | f :: fs => some (fs.foldl (fun best g => if best.mtime < g.mtime then g else best) f)

/-- `ProcessWorker.find_video_file` (lines 369-402): exact-name fast
path, then the fuzzy-normalized scan, preferring the most recently
modified candidate; `none` models returning `None`. -/
def find_video_file (dir : List DirEntry) (expected_name : Str) (title_hint : Str) : Option Str :=
  if expected_name ≠ [] ∧ dir.any (fun f => f.name = expected_name) then some expected_name
  else
    let target_base := clean_name expected_name
    let hint_base := if title_hint ≠ [] then clean_name title_hint else []
    let candidates := dir.filter (isCandidate target_base hint_base)
    (maxByMtime candidates).map (fun b => b.name)

/-! ## Progress parser (`ProcessWorker.run` download loop) -/

/-- Components of the progress regular expression
`\[download\]\s+([\d\.]+)%\s+of\s+.*\s+at\s+.*\s+ETA\s+([\d:]+)`:
a literal string, one-or-more of a character class (optionally captured
into a numbered group), or the greedy `.*`. -/
inductive RE where
  | lit : Str → RE
  | clsPlus : (Char → Bool) → RE
  | grpPlus : Nat → (Char → Bool) → RE
  | dotStar : RE

/-- Try `f` at lengths `n, n-1, ..., 1` and keep the first success
(greedy preference for longer matches). -/
def tryDown (f : Nat → Option α) : Nat → Option α
  | 0 => none
  | n + 1 => (f (n + 1)).orElse (fun _ => tryDown f n)

/-- Greedy backtracking matcher for a sequence of components against a
prefix of `s` (the rest of the string may remain, as in `re.search`).
Captured groups accumulate in `caps`; `fuel` bounds the nesting depth
and is decremented once per component. -/
def reMatch (fuel : Nat) (k : List RE) (s : Str) (caps : List (Nat × Str)) :
    Option (List (Nat × Str)) :=
  match fuel, k with
  | 0, _ => none
  | _ + 1, [] => some caps
  | fuel + 1, RE.lit w :: k' =>
    match dropLit w s with
    | some s' => reMatch fuel k' s' caps
    | none => none
  | fuel + 1, RE.clsPlus p :: k' =>
    tryDown (fun n => reMatch fuel k' (s.drop n) caps) (s.takeWhile p).length
  | fuel + 1, RE.grpPlus i p :: k' =>
    tryDown (fun n => reMatch fuel k' (s.drop n) ((i, s.take n) :: caps)) (s.takeWhile p).length
  | fuel + 1, RE.dotStar :: k' =>
    (tryDown (fun n => reMatch fuel k' (s.drop n) caps) (s.takeWhile (fun c => ¬ (c = '\n'))).length).orElse
      (fun _ => reMatch fuel k' s caps)

/-- `re.search`: try the pattern at each start position, leftmost first. -/
def reSearch (pat : List RE) : Str → Option (List (Nat × Str))
  | [] => reMatch 32 pat [] []
  | c :: t =>
    match reMatch 32 pat (c :: t) [] with
    | some caps => some caps
    | none => reSearch pat t

def isDigOrDot (c : Char) : Bool := isDigitChar c ∨ c = '.'

def isDigOrColon (c : Char) : Bool := isDigitChar c ∨ c = ':'

/-- The compiled progress pattern (`re_progress`, `gui_split.py` line 424). -/
def progressPat : List RE :=
  [ RE.lit (String.toList "[download]")
  , RE.clsPlus isSpaceChar
  , RE.grpPlus 1 isDigOrDot
  , RE.lit ['%']
  , RE.clsPlus isSpaceChar, RE.lit (String.toList "of"), RE.clsPlus isSpaceChar
  , RE.dotStar
  , RE.clsPlus isSpaceChar, RE.lit (String.toList "at"), RE.clsPlus isSpaceChar
  , RE.dotStar
  , RE.clsPlus isSpaceChar, RE.lit (String.toList "ETA"), RE.clsPlus isSpaceChar
  , RE.grpPlus 2 isDigOrColon ]

/-- The two capture groups of a successful progress match:
`match.group(1)` (percent digits) and `match.group(2)` (ETA). -/
def parseProgressLine (line : Str) : Option (Str × Str) :=
  match reSearch progressPat line with
  | none => none
  | some caps =>
    match caps.lookup 1, caps.lookup 2 with
    | some g1, some g2 => some (g1, g2)
    | _, _ => none

/-- The event emitted per matching line
(`self.download_progress.emit(f"{percent}%", f"Remaining: {eta}")`);
non-matching lines emit nothing. -/
def progressEvent (line : Str) : Option (Str × Str) :=
  (parseProgressLine line).map
    (fun g => (g.1 ++ ['%'], String.toList "Remaining: " ++ g.2))

/-! ## Helper lemmas: strings and digits -/

theorem dropWhile_eq_self_of_all {p : Char → Bool} {l : Str}
    (h : ∀ c ∈ l, p c = false) : l.dropWhile p = l := by
  cases l with
  | nil => rfl
  | cons c t => simp [List.dropWhile, h c (List.mem_cons_self c t)]

theorem takeWhile_eq_self_of_all {p : Char → Bool} {l : Str}
    (h : ∀ c ∈ l, p c = true) : l.takeWhile p = l := by
  induction l with
  | nil => rfl
  | cons c t ih =>
    simp [List.takeWhile, h c (List.mem_cons_self c t)]
    exact fun x hx => h x (List.mem_cons_of_mem c hx)

theorem dropWhile_eq_nil_of_all {p : Char → Bool} {l : Str}
    (h : ∀ c ∈ l, p c = true) : l.dropWhile p = [] := by
  induction l with
  | nil => rfl
  | cons c t ih =>
    simp [List.dropWhile, h c (List.mem_cons_self c t)]
    exact fun x hx => h x (List.mem_cons_of_mem c hx)

theorem stripWS_eq_self {l : Str} (h : ∀ c ∈ l, isSpaceChar c = false) :
    stripWS l = l := by
  unfold stripWS
  rw [dropWhile_eq_self_of_all h,
      dropWhile_eq_self_of_all (fun c hc => h c (List.mem_reverse.mp hc)),
      List.reverse_reverse]

theorem mem_stripWS {c : Char} {l : Str} (h : c ∈ stripWS l) : c ∈ l := by
  unfold stripWS at h
  rw [List.mem_reverse] at h
  have h2 := (List.dropWhile_sublist _).subset h
  rw [List.mem_reverse] at h2
  exact (List.dropWhile_sublist _).subset h2

theorem splitCh_no_sep {sep : Char} {l : Str} (h : ∀ c ∈ l, c ≠ sep) :
    splitCh sep l = [l] := by
  induction l with
  | nil => rfl
  | cons c t ih =>
    have hc : c ≠ sep := h c (List.mem_cons_self c t)
    have ht := ih (fun x hx => h x (List.mem_cons_of_mem c hx))
    simp [splitCh, hc, ht]

theorem splitCh_append_sep {sep : Char} {a r : Str} (h : ∀ c ∈ a, c ≠ sep) :
    splitCh sep (a ++ sep :: r) = a :: splitCh sep r := by
  induction a with
  | nil => simp [splitCh]
  | cons c t ih =>
    have hc : c ≠ sep := h c (List.mem_cons_self c t)
    have ht := ih (fun x hx => h x (List.mem_cons_of_mem c hx))
    simp [splitCh, hc, ht]

theorem digVal_digitChar {d : Nat} (h : d < 10) : digVal (digitChar d) = d := by
  interval_cases d <;> decide

theorem isDigit_digitChar {d : Nat} (h : d < 10) : isDigitChar (digitChar d) = true := by
  interval_cases d <;> decide

theorem digit_not_space {c : Char} (h : isDigitChar c = true) : isSpaceChar c = false := by
  simp [isDigitChar, decide_eq_true_eq] at h
  simp [isSpaceChar, decide_eq_true_eq]
  refine ⟨?_, ?_, ?_, ?_, ?_, ?_⟩ <;> rintro rfl <;> revert h <;> decide

theorem digit_ne_colon {c : Char} (h : isDigitChar c = true) : c ≠ ':' := by
  simp [isDigitChar, decide_eq_true_eq] at h
  rintro rfl; revert h; decide

theorem natToDigitsAux_fuel : ∀ (fuel1 fuel2 n : Nat), n < fuel1 → n < fuel2 →
    natToDigitsAux fuel1 n = natToDigitsAux fuel2 n
  | 0, _, _, h1, _ => absurd h1 (by omega)
  | _ + 1, 0, _, _, h2 => absurd h2 (by omega)
  | f1 + 1, f2 + 1, n, h1, h2 => by
    simp only [natToDigitsAux]
    by_cases h : n < 10
    · rw [if_pos h, if_pos h]
    · rw [if_neg h, if_neg h]
      have hd : n / 10 < n := Nat.div_lt_self (by omega) (by decide)
      rw [natToDigitsAux_fuel f1 f2 (n / 10) (by omega) (by omega)]

theorem natToDigits_eq (n : Nat) :
    natToDigits n = if n < 10 then [digitChar n]
      else natToDigits (n / 10) ++ [digitChar (n % 10)] := by
  show natToDigitsAux (n + 1) n = _
  rw [natToDigitsAux]
  by_cases h : n < 10
  · rw [if_pos h, if_pos h]
  · rw [if_neg h, if_neg h]
    have hd : n / 10 < n := Nat.div_lt_self (by omega) (by decide)
    show natToDigitsAux n (n / 10) ++ _ = natToDigitsAux (n / 10 + 1) (n / 10) ++ _
    rw [natToDigitsAux_fuel n (n / 10 + 1) (n / 10) (by omega) (by omega)]

theorem natToDigits_ne_nil (n : Nat) : natToDigits n ≠ [] := by
  rw [natToDigits_eq]
  split <;> simp

theorem natToDigits_all_digits (n : Nat) : ∀ c ∈ natToDigits n, isDigitChar c = true := by
  induction n using Nat.strong_induction_on with
  | _ n ih =>
    rw [natToDigits_eq]
    split
    · next h =>
      intro c hc
      simp at hc
      rw [hc]
      exact isDigit_digitChar h
    · next h =>
      intro c hc
      have hlt : n / 10 < n :=
        Nat.div_lt_self (Nat.lt_of_lt_of_le (by decide) (Nat.le_of_not_lt h)) (by decide)
      simp at hc
      rcases hc with hc | hc
      · exact ih (n / 10) hlt c hc
      · rw [hc]; exact isDigit_digitChar (Nat.mod_lt n (by decide))

theorem natOfDigits_append_digit (l : Str) (c : Char) :
    natOfDigits (l ++ [c]) = 10 * natOfDigits l + digVal c := by
  simp [natOfDigits, List.foldl_append]

theorem natOfDigits_natToDigits (n : Nat) : natOfDigits (natToDigits n) = n := by
  induction n using Nat.strong_induction_on with
  | _ n ih =>
    rw [natToDigits_eq]
    split
    · next h =>
      simp [natOfDigits, digVal_digitChar h]
    · next h =>
      have hlt : n / 10 < n :=
        Nat.div_lt_self (Nat.lt_of_lt_of_le (by decide) (Nat.le_of_not_lt h)) (by decide)
      rw [natOfDigits_append_digit, ih (n / 10) hlt,
          digVal_digitChar (Nat.mod_lt n (by decide))]
      exact Nat.div_add_mod n 10

theorem natOfDigits_cons_zero (l : Str) : natOfDigits ('0' :: l) = natOfDigits l := by
  have h0 : digVal '0' = 0 := by decide
  simp [natOfDigits, h0]

/-! ## Helper lemmas: `pyFloat` on digit strings, `pad2` -/

theorem readSign_digits {ds : Str} (h1 : ds ≠ []) (h2 : ∀ c ∈ ds, isDigitChar c = true) :
    readSign ds = (1, ds) := by
  cases ds with
  | nil => exact absurd rfl h1
  | cons c t =>
    have hc := h2 c (List.mem_cons_self c t)
    have hplus : c ≠ '+' := by rintro rfl; revert hc; decide
    have hminus : c ≠ '-' := by rintro rfl; revert hc; decide
    rw [readSign.eq_def]
    split
    · next heq => rw [List.cons.injEq] at heq; exact absurd heq.1 hplus
    · next heq => rw [List.cons.injEq] at heq; exact absurd heq.1 hminus
    · rfl

theorem pyFloat_digits {ds : Str} (h1 : ds ≠ []) (h2 : ∀ c ∈ ds, isDigitChar c = true) :
    pyFloat ds = some ((natOfDigits ds : ℚ)) := by
  have hs : stripWS ds = ds := stripWS_eq_self (fun c hc => digit_not_space (h2 c hc))
  have hr : readSign ds = (1, ds) := readSign_digits h1 h2
  have ht : ds.takeWhile isDigitChar = ds := takeWhile_eq_self_of_all h2
  have hd : ds.dropWhile isDigitChar = [] := dropWhile_eq_nil_of_all h2
  unfold pyFloat
  simp only [hs, hr, ht, hd]
  simp [h1, readExp]

theorem pad2_all_digits (n : Nat) : ∀ c ∈ pad2 n, isDigitChar c = true := by
  unfold pad2
  split
  · intro c hc
    rcases List.mem_cons.mp hc with hc | hc
    · rw [hc]; decide
    · exact natToDigits_all_digits n c hc
  · exact natToDigits_all_digits n

theorem pad2_ne_nil (n : Nat) : pad2 n ≠ [] := by
  unfold pad2
  split
  · simp
  · exact natToDigits_ne_nil n

theorem natOfDigits_pad2 (n : Nat) : natOfDigits (pad2 n) = n := by
  unfold pad2
  split
  · rw [natOfDigits_cons_zero, natOfDigits_natToDigits]
  · exact natOfDigits_natToDigits n

theorem pyFloat_pad2 (n : Nat) : pyFloat (pad2 n) = some (n : ℚ) := by
  rw [pyFloat_digits (pad2_ne_nil n) (pad2_all_digits n), natOfDigits_pad2]

theorem intPad2_natCast (n : Nat) : intPad2 (n : Int) = pad2 n := by
  unfold intPad2
  rw [if_pos (Int.natCast_nonneg n), Int.toNat_natCast]

/-! ## Helper lemmas: `parse_time` on `HH:MM:SS` strings, `format_seconds` on whole seconds -/

theorem timeStr_not_space {a b c : Str}
    (ha : ∀ x ∈ a, isDigitChar x = true) (hb : ∀ x ∈ b, isDigitChar x = true)
    (hc : ∀ x ∈ c, isDigitChar x = true) :
    ∀ x ∈ a ++ (':' :: (b ++ (':' :: c))), isSpaceChar x = false := by
  intro x hx
  simp [List.mem_append, List.mem_cons] at hx
  rcases hx with hx | hx | hx | hx | hx
  · exact digit_not_space (ha x hx)
  · rw [hx]; decide
  · exact digit_not_space (hb x hx)
  · rw [hx]; decide
  · exact digit_not_space (hc x hx)

theorem splitCh_three {a b c : Str}
    (ha : ∀ x ∈ a, isDigitChar x = true) (hb : ∀ x ∈ b, isDigitChar x = true)
    (hc : ∀ x ∈ c, isDigitChar x = true) :
    splitCh ':' (a ++ (':' :: (b ++ (':' :: c)))) = [a, b, c] := by
  rw [splitCh_append_sep (fun x hx => digit_ne_colon (ha x hx)),
      splitCh_append_sep (fun x hx => digit_ne_colon (hb x hx)),
      splitCh_no_sep (fun x hx => digit_ne_colon (hc x hx))]

theorem parse_time_digits {a b c : Str}
    (h1 : a ≠ []) (h2 : b ≠ []) (h3 : c ≠ [])
    (ha : ∀ x ∈ a, isDigitChar x = true) (hb : ∀ x ∈ b, isDigitChar x = true)
    (hc : ∀ x ∈ c, isDigitChar x = true) :
    parse_time (a ++ (':' :: (b ++ (':' :: c)))) =
      (natOfDigits a : ℚ) * 3600 + (natOfDigits b : ℚ) * 60 + (natOfDigits c : ℚ) := by
  have hne : a ++ (':' :: (b ++ (':' :: c))) ≠ [] := by
    cases a <;> simp
  have hsp := stripWS_eq_self (timeStr_not_space ha hb hc)
  unfold parse_time
  rw [if_neg hne]
  simp only [hsp, splitCh_three ha hb hc]
  simp [pyFloat_digits h1 ha, pyFloat_digits h2 hb, pyFloat_digits h3 hc]

theorem ratFloorNatDiv (n m : Nat) (hm : 0 < m) :
    ⌊(n : ℚ) / (m : ℚ)⌋ = ((n / m : Nat) : Int) := by
  have hm' : (0 : ℚ) < (m : ℚ) := by exact_mod_cast hm
  rw [Int.floor_eq_iff]
  constructor
  · rw [le_div_iff₀ hm']
    exact_mod_cast Nat.div_mul_le_self n m
  · rw [div_lt_iff₀ hm']
    have hdm := Nat.div_add_mod n m
    have hmod := Nat.mod_lt n hm
    have hlt : n < (n / m + 1) * m := by nlinarith
    exact_mod_cast hlt

theorem pyMod_natCast (n m : Nat) (hm : 0 < m) :
    pyMod (n : ℚ) (m : ℚ) = ((n % m : Nat) : ℚ) := by
  unfold pyMod
  rw [ratFloorNatDiv n m hm, Int.cast_natCast]
  have hq : (m : ℚ) * ((n / m : Nat) : ℚ) + ((n % m : Nat) : ℚ) = (n : ℚ) := by
    exact_mod_cast Nat.div_add_mod n m
  linarith

theorem format_seconds_nat (n : Nat) :
    format_seconds (n : ℚ) =
      pad2 (n / 3600) ++ (':' :: (pad2 (n % 3600 / 60) ++ (':' :: pad2 (n % 60)))) := by
  have c36 : ((3600 : ℚ)) = ((3600 : Nat) : ℚ) := by norm_num
  have c60 : ((60 : ℚ)) = ((60 : Nat) : ℚ) := by norm_num
  have h1 : ⌊(n : ℚ) / 3600⌋ = ((n / 3600 : Nat) : Int) := by
    rw [c36]; exact ratFloorNatDiv n 3600 (by norm_num)
  have h2 : pyMod (n : ℚ) 3600 = ((n % 3600 : Nat) : ℚ) := by
    rw [c36]; exact pyMod_natCast n 3600 (by norm_num)
  have h4 : pyMod (n : ℚ) 60 = ((n % 60 : Nat) : ℚ) := by
    rw [c60]; exact pyMod_natCast n 60 (by norm_num)
  have h3 : ⌊pyMod (n : ℚ) 3600 / 60⌋ = ((n % 3600 / 60 : Nat) : Int) := by
    rw [h2, c60]; exact ratFloorNatDiv (n % 3600) 60 (by norm_num)
  have h5 : ⌊pyMod (n : ℚ) 60⌋ = ((n % 60 : Nat) : Int) := by
    rw [h4, Int.floor_natCast]
  unfold format_seconds
  simp only [h1, h3, h5, intPad2_natCast]

theorem parse_time_format (n : Nat) : parse_time (format_seconds (n : ℚ)) = (n : ℚ) := by
  rw [format_seconds_nat,
      parse_time_digits (pad2_ne_nil _) (pad2_ne_nil _) (pad2_ne_nil _)
        (pad2_all_digits _) (pad2_all_digits _) (pad2_all_digits _),
      natOfDigits_pad2, natOfDigits_pad2, natOfDigits_pad2]
  have q1 : ((3600 * (n / 3600) + n % 3600 : Nat) : ℚ) = (n : ℚ) := by
    exact_mod_cast Nat.div_add_mod n 3600
  have q2 : ((60 * (n % 3600 / 60) + n % 3600 % 60 : Nat) : ℚ) = ((n % 3600 : Nat) : ℚ) := by
    exact_mod_cast Nat.div_add_mod (n % 3600) 60
  have q3 : ((n % 3600 % 60 : Nat) : ℚ) = ((n % 60 : Nat) : ℚ) := by
    have e3 : n % 3600 % 60 = n % 60 := Nat.mod_mod_of_dvd n (by norm_num)
    exact_mod_cast e3
  push_cast at q1 q2 q3 ⊢
  linarith

/-! ## Helper lemmas: the segment planner -/

theorem planSegs_length : ∀ (cs : List Chapter) (d : ℚ), (planSegs cs d).length = cs.length
  | [], _ => rfl
  | [_], _ => rfl
  | _ :: c2 :: r, d =>
    congrArg (fun k => k + 1) (planSegs_length (c2 :: r) d)

theorem planSegs_get : ∀ (cs : List Chapter) (d : ℚ) (i : Nat) (h : i < cs.length),
    (planSegs cs d).get ⟨i, by rw [planSegs_length]; exact h⟩ =
      ⟨(cs.get ⟨i, h⟩).start_time,
       (if h2 : i + 1 < cs.length then (cs.get ⟨i + 1, h2⟩).start_time else d)
         - (cs.get ⟨i, h⟩).start_time,
       (cs.get ⟨i, h⟩).title⟩
  | [], _, i, h => by simp at h
  | [c], d, 0, h => by simp [planSegs]
  | [c], d, i + 1, h => by simp at h
  | c :: c2 :: r, d, 0, h => by
    simp [planSegs]
  | c :: c2 :: r, d, i + 1, h => by
    have h' : i < (c2 :: r).length := by
      simpa using Nat.lt_of_succ_lt_succ h
    have ih := planSegs_get (c2 :: r) d i h'
    simp only [planSegs, List.get_cons_succ]
    rw [ih]
    have hiff : i + 1 + 1 < (c :: c2 :: r).length ↔ i + 1 < (c2 :: r).length := by
      simp
    by_cases h2 : i + 1 < (c2 :: r).length
    · rw [dif_pos h2, dif_pos (hiff.mpr h2)]
      rfl
    · rw [dif_neg h2, dif_neg (fun hh => h2 (hiff.mp hh))]

theorem planSegs_sum : ∀ (c : Chapter) (r : List Chapter) (d : ℚ),
    ((planSegs (c :: r) d).map Segment.length).sum = d - c.start_time
  | c, [], d => by simp [planSegs]
  | c, c2 :: r, d => by
    simp only [planSegs, List.map_cons, List.sum_cons]
    rw [planSegs_sum c2 r d]
    ring

theorem segsUnion_cons (s : Segment) (r : List Segment) :
    segsUnion (s :: r) = segIco s ∪ segsUnion r := rfl

theorem segIco_subset_segsUnion {t : Segment} : ∀ {l : List Segment}, t ∈ l → segIco t ⊆ segsUnion l := by
  intro l
  induction l with
  | nil => intro h; simp at h
  | cons s r ih =>
    intro h
    rw [segsUnion_cons]
    rcases List.mem_cons.mp h with h | h
    · rw [h]; exact Set.subset_union_left
    · exact (ih h).trans Set.subset_union_right

theorem chain_le_last : ∀ (cs : List Chapter) (hne : cs ≠ []),
    List.Chain' (fun a b => a.start_time ≤ b.start_time) cs →
    ∀ ch ∈ cs, ch.start_time ≤ (cs.getLast hne).start_time
  | [], hne, _, _, _ => absurd rfl hne
  | [c], _, _, ch, hm => by
    simp at hm
    rw [hm]
    exact le_rfl
  | c :: c2 :: r, _, hch, ch, hm => by
    have hch' := (List.chain'_cons.mp hch)
    have hlast : (c :: c2 :: r).getLast (by simp) = (c2 :: r).getLast (by simp) := by
      simp [List.getLast]
    rcases List.mem_cons.mp hm with hm | hm
    · rw [hm, hlast]
      exact hch'.1.trans
        (chain_le_last (c2 :: r) (by simp) hch'.2 c2 (List.mem_cons_self c2 r))
    · rw [hlast]
      exact chain_le_last (c2 :: r) (by simp) hch'.2 ch hm

theorem planSegs_union : ∀ (c : Chapter) (r : List Chapter) (d : ℚ),
    List.Chain' (fun a b => a.start_time ≤ b.start_time) (c :: r) →
    (∀ ch ∈ c :: r, ch.start_time ≤ d) →
    segsUnion (planSegs (c :: r) d) = Set.Ico c.start_time d
  | c, [], d, _, hbd => by
    show segsUnion [⟨c.start_time, d - c.start_time, c.title⟩] = _
    rw [segsUnion_cons, segIco]
    simp only
    rw [show c.start_time + (d - c.start_time) = d by ring]
    show Set.Ico c.start_time d ∪ segsUnion [] = Set.Ico c.start_time d
    rw [show segsUnion [] = ∅ from rfl, Set.union_empty]
  | c, c2 :: r, d, hch, hbd => by
    have hch' := List.chain'_cons.mp hch
    have ih := planSegs_union c2 r d hch'.2
      (fun ch hm => hbd ch (List.mem_cons_of_mem c hm))
    show segsUnion (⟨c.start_time, c2.start_time - c.start_time, c.title⟩ :: planSegs (c2 :: r) d) = _
    rw [segsUnion_cons, ih, segIco]
    simp only
    rw [show c.start_time + (c2.start_time - c.start_time) = c2.start_time by ring]
    exact Set.Ico_union_Ico_eq_Ico hch'.1
      (hbd c2 (List.mem_cons_of_mem c (List.mem_cons_self c2 r)))

theorem planSegs_pairwise : ∀ (cs : List Chapter) (d : ℚ),
    List.Chain' (fun a b => a.start_time ≤ b.start_time) cs →
    (∀ ch ∈ cs, ch.start_time ≤ d) →
    List.Pairwise (fun s t => Disjoint (segIco s) (segIco t)) (planSegs cs d)
  | [], _, _, _ => List.Pairwise.nil
  | [c], d, _, _ => by simp [planSegs]
  | c :: c2 :: r, d, hch, hbd => by
    have hch' := List.chain'_cons.mp hch
    have hbd' : ∀ ch ∈ c2 :: r, ch.start_time ≤ d :=
      fun ch hm => hbd ch (List.mem_cons_of_mem c hm)
    have ih := planSegs_pairwise (c2 :: r) d hch'.2 hbd'
    show List.Pairwise _ (⟨c.start_time, c2.start_time - c.start_time, c.title⟩ :: planSegs (c2 :: r) d)
    refine List.Pairwise.cons ?_ ih
    intro t ht
    have hsub : segIco t ⊆ Set.Ico c2.start_time d := by
      rw [← planSegs_union c2 r d hch'.2 hbd']
      exact segIco_subset_segsUnion ht
    have hhead : segIco ⟨c.start_time, c2.start_time - c.start_time, c.title⟩ =
        Set.Ico c.start_time c2.start_time := by
      rw [segIco]
      simp only
      rw [show c.start_time + (c2.start_time - c.start_time) = c2.start_time by ring]
    rw [hhead]
    exact Set.Ico_disjoint_Ico_same.mono_right hsub

/-! ## Helper lemmas: the file resolver and filename sanitization -/

theorem foldl_mtime_mem : ∀ (fs : List DirEntry) (f : DirEntry),
    fs.foldl (fun best g => if best.mtime < g.mtime then g else best) f ∈ f :: fs
  | [], _ => by simp
  | g :: gs, f => by
    show gs.foldl _ (if f.mtime < g.mtime then g else f) ∈ f :: g :: gs
    have h := foldl_mtime_mem gs (if f.mtime < g.mtime then g else f)
    rcases List.mem_cons.mp h with h | h
    · rw [h]
      split
      · simp
      · simp
    · simp [h]

theorem foldl_mtime_ge : ∀ (fs : List DirEntry) (f : DirEntry) (g : DirEntry),
    g ∈ f :: fs →
    g.mtime ≤ (fs.foldl (fun best g => if best.mtime < g.mtime then g else best) f).mtime
  | [], f, g, hm => by
    simp at hm
    rw [hm]
    exact le_rfl
  | x :: xs, f, g, hm => by
    show _ ≤ (xs.foldl _ (if f.mtime < x.mtime then x else f)).mtime
    have hf : f.mtime ≤ (if f.mtime < x.mtime then x else f).mtime := by
      split
      · next hlt => exact le_of_lt hlt
      · exact le_rfl
    have hx : x.mtime ≤ (if f.mtime < x.mtime then x else f).mtime := by
      split
      · exact le_rfl
      · next hlt => exact le_of_not_lt hlt
    have hrec := foldl_mtime_ge xs (if f.mtime < x.mtime then x else f)
      (if f.mtime < x.mtime then x else f) (List.mem_cons_self _ _)
    rcases List.mem_cons.mp hm with hm | hm
    · rw [hm]; exact hf.trans hrec
    · rcases List.mem_cons.mp hm with hm | hm
      · rw [hm]; exact hx.trans hrec
      · exact foldl_mtime_ge xs (if f.mtime < x.mtime then x else f) g
          (List.mem_cons_of_mem _ hm)

theorem maxByMtime_spec {l : List DirEntry} {b : DirEntry} (h : maxByMtime l = some b) :
    b ∈ l ∧ ∀ g ∈ l, g.mtime ≤ b.mtime := by
  cases l with
  | nil => simp [maxByMtime] at h
  | cons f fs =>
    rw [maxByMtime, Option.some.injEq] at h
    rw [← h]
    exact ⟨foldl_mtime_mem fs f, fun g hg => foldl_mtime_ge fs f g hg⟩

theorem clean_filename_chars {t : Str} {c : Char} (h : c ∈ clean_filename t) :
    isBadFnameChar c = false ∧ c ≠ ' ' := by
  unfold clean_filename at h
  rcases List.mem_map.mp h with ⟨c', hc', heq⟩
  have hmem := mem_stripWS hc'
  have hfil := (List.mem_filter.mp hmem).2
  by_cases hsp : c' = ' '
  · rw [hsp] at heq
    simp at heq
    rw [← heq]
    exact ⟨by decide, by decide⟩
  · rw [if_neg hsp] at heq
    rw [← heq]
    refine ⟨?_, hsp⟩
    simpa using hfil

/-! ## Claim C4: exact-match fast path of the file resolver -/

/-- Claim C4: for every directory state and every non-empty expected
filename, if a file with exactly that name exists in the directory then
`find_video_file` returns that file, even when other files would also
match under the fuzzy-normalized containment rule. -/
theorem c4_exact_match_priority (dir : List DirEntry) (e hint : Str)
    (he : e ≠ []) (hex : dir.any (fun f => f.name = e) = true) :
    find_video_file dir e hint = some e := by
  unfold find_video_file
  rw [if_pos ⟨he, hex⟩]

/-- Witness for C4: the exact file `video.mp4` is returned even though
the fuzzier `video extra.mp4` has a later modification time. -/
theorem c4_witness :
    find_video_file
      [⟨String.toList "video.mp4", true, 5⟩, ⟨String.toList "video extra.mp4", true, 99⟩]
      (String.toList "video.mp4") [] = some (String.toList "video.mp4") :=
  c4_exact_match_priority _ _ _ (by decide) (by decide)

/-! ## Claim C8: output naming and filename sanitization -/

/-- Counterexample for C8: the code's sanitization also trims
surrounding whitespace (`.strip()`), which the claimed
remove-then-replace rule (`sanitizeSpec`) does not: on the title
`"A "` the code produces `"A"`, the claimed rule `"A_"`. -/
theorem c8_counterexample :
    clean_filename (String.toList "A ") = String.toList "A" ∧
    sanitizeSpec (String.toList "A ") = String.toList "A_" ∧
    clean_filename (String.toList "A ") ≠ sanitizeSpec (String.toList "A ") ∧
    outputName 0 (clean_filename (String.toList "A ")) (String.toList ".mp4")
      = String.toList "01_A.mp4" := by
  refine ⟨by decide, by decide, by decide, by decide⟩

/-- Claim C8 (amended): the output filename is the zero-padded (width 2)
1-based index, an underscore, the sanitized title and the container
extension, where sanitization removes every occurrence of
`\ / : * ? " < > |`, trims surrounding whitespace, and replaces the
remaining spaces with underscores; in particular `"Chapter: Test?"`
sanitizes to `"Chapter_Test"` and chapter 1 of an mp4 source is named
`01_Chapter_Test.mp4`. -/
theorem c8_output_naming :
    (∀ i title ext, outputName i (clean_filename title) ext
      = pad2 (i + 1) ++ '_' :: clean_filename title ++ ext) ∧
    (∀ title c, c ∈ clean_filename title → isBadFnameChar c = false ∧ c ≠ ' ') ∧
    clean_filename (String.toList "Chapter: Test?") = String.toList "Chapter_Test" ∧
    outputName 0 (clean_filename (String.toList "Chapter: Test?")) (String.toList ".mp4")
      = String.toList "01_Chapter_Test.mp4" := by
  refine ⟨fun i title ext => rfl, fun title c h => clean_filename_chars h, by decide, by decide⟩

/-- Witness for C8: the character `C` occurs in the sanitized
`"Chapter: Test?"`, so it is neither a forbidden character nor a space. -/
theorem c8_witness :
    isBadFnameChar 'C' = false ∧ 'C' ≠ ' ' :=
  c8_output_naming.2.1 (String.toList "Chapter: Test?") 'C' (by decide)

/-! ## Claim C3: the planner performs no validation -/

/-- Counterexample for C3: on a chapter list violating the ordering
invariant (start 10 followed by start 0, duration 20) the planner does
not surface any `PlanningError` — no error value exists in either
script — and it does emit a segment of negative length `-10`. -/
theorem c3_counterexample :
    planSegs [⟨10, String.toList "A"⟩, ⟨0, String.toList "B"⟩] 20
      = [⟨10, -10, String.toList "A"⟩, ⟨0, 20, String.toList "B"⟩] ∧
    (-10 : ℚ) < 0 := by
  constructor
  · show [(⟨10, 0 - 10, String.toList "A"⟩ : Segment), ⟨0, 20 - 0, String.toList "B"⟩] = _
    norm_num
  · norm_num

/-- Claim C3 (amended): the split loop performs no validation and has no
error path: for every chapter list — including ones violating the
ordering/timing invariant — it returns exactly one segment per chapter
with `start = chapters[i].start_time` and
`length = (next start or duration) - start`, which is negative when the
invariant is violated. -/
theorem c3_planner_no_validation (cs : List Chapter) (d : ℚ) :
    (planSegs cs d).length = cs.length ∧
    ∀ i (h : i < cs.length),
      (planSegs cs d).get ⟨i, by rw [planSegs_length]; exact h⟩ =
        ⟨(cs.get ⟨i, h⟩).start_time,
         (if h2 : i + 1 < cs.length then (cs.get ⟨i + 1, h2⟩).start_time else d)
           - (cs.get ⟨i, h⟩).start_time,
         (cs.get ⟨i, h⟩).title⟩ :=
  ⟨planSegs_length cs d, fun i h => planSegs_get cs d i h⟩

/-- Witness for C3: on the invariant-violating list of the
counterexample, the first planned segment is exactly the arithmetic one,
with negative length `0 - 10`. -/
theorem c3_witness :
    (planSegs [⟨10, String.toList "A"⟩, ⟨0, String.toList "B"⟩] 20).get
        ⟨0, by rw [planSegs_length]; decide⟩
      = ⟨10, 0 - 10, String.toList "A"⟩ := by
  have h := (c3_planner_no_validation
    [⟨10, String.toList "A"⟩, ⟨0, String.toList "B"⟩] 20).2 0 (by decide)
  rw [h]
  rfl

/-! ## Claim C1: tiling of the planned segments -/

/-- Counterexample for C1: the chapter list `[{start 10}]` is sorted and
the duration 20 is at least the last start, yet the planner's single
segment `[10, 20)` does not tile `[0, 20)`: the lengths sum to 10, not
20, and the interval union misses `[0, 10)`. -/
theorem c1_counterexample :
    List.Chain' (fun a b => a.start_time ≤ b.start_time)
      [(⟨10, String.toList "A"⟩ : Chapter)] ∧
    (10 : ℚ) ≤ 20 ∧
    ((planSegs [⟨10, String.toList "A"⟩] 20).map Segment.length).sum ≠ 20 ∧
    segsUnion (planSegs [⟨10, String.toList "A"⟩] 20) ≠ Set.Ico (0 : ℚ) 20 := by
  refine ⟨by simp, by norm_num, ?_, ?_⟩
  · rw [planSegs_sum]
    norm_num
  · intro hu
    have h0 : (0 : ℚ) ∈ Set.Ico (0 : ℚ) 20 := by
      constructor <;> norm_num
    rw [← hu] at h0
    rw [planSegs_union _ _ _ (by simp) (by intro ch hm; simp at hm; rw [hm]; norm_num)] at h0
    rcases h0 with ⟨h0, _⟩
    norm_num at h0

/-- Claim C1 (amended): for every non-empty chapter list sorted by
non-decreasing `start_time` whose first chapter starts at 0 and whose
last start is at most the duration, the planner produces one segment per
chapter with `start = chapters[i].start_time` and
`length = (next start or duration) - start`, and the segments'
half-open intervals tile `[0, duration)` exactly: their union is
`[0, duration)`, they are pairwise disjoint, and the lengths sum to the
duration.  (The original claim omitted the first-start-at-0 requirement,
without which `[0, duration)` is not covered.) -/
theorem c1_planner_tiles (cs : List Chapter) (d : ℚ) (hne : cs ≠ [])
    (hsort : List.Chain' (fun a b => a.start_time ≤ b.start_time) cs)
    (h0 : (cs.head hne).start_time = 0)
    (hd : (cs.getLast hne).start_time ≤ d) :
    (planSegs cs d).length = cs.length ∧
    (∀ i (h : i < cs.length),
      (planSegs cs d).get ⟨i, by rw [planSegs_length]; exact h⟩ =
        ⟨(cs.get ⟨i, h⟩).start_time,
         (if h2 : i + 1 < cs.length then (cs.get ⟨i + 1, h2⟩).start_time else d)
           - (cs.get ⟨i, h⟩).start_time,
         (cs.get ⟨i, h⟩).title⟩) ∧
    ((planSegs cs d).map Segment.length).sum = d ∧
    segsUnion (planSegs cs d) = Set.Ico 0 d ∧
    List.Pairwise (fun s t => Disjoint (segIco s) (segIco t)) (planSegs cs d) := by
  have hbd : ∀ ch ∈ cs, ch.start_time ≤ d :=
    fun ch hm => (chain_le_last cs hne hsort ch hm).trans hd
  cases cs with
  | nil => exact absurd rfl hne
  | cons c r =>
    have hc0 : c.start_time = 0 := h0
    refine ⟨planSegs_length _ d, fun i h => planSegs_get _ d i h, ?_, ?_,
      planSegs_pairwise _ d hsort hbd⟩
    · rw [planSegs_sum, hc0, sub_zero]
    · rw [planSegs_union c r d hsort hbd, hc0]

/-- Witness for C1: the spec's own example — chapters starting at 0 and
120 with duration 300 — yields segment lengths summing to 300 and
intervals whose union is `[0, 300)`. -/
theorem c1_witness :
    ((planSegs [⟨0, String.toList "Intro"⟩, ⟨120, String.toList "Main"⟩] 300).map
        Segment.length).sum = 300 ∧
    segsUnion (planSegs [⟨0, String.toList "Intro"⟩, ⟨120, String.toList "Main"⟩] 300)
      = Set.Ico 0 300 := by
  have h := c1_planner_tiles
    [⟨0, String.toList "Intro"⟩, ⟨120, String.toList "Main"⟩] 300
    (by simp) (by simp) rfl (by norm_num)
  exact ⟨h.2.2.1, h.2.2.2.1⟩

/-! ## Claim C2: the no-chapters case -/

/-- Counterexample for C2: the CLI script does not synthesize a
whole-video segment when chapters are missing — it exits with an error
(`sys.exit(1)` after the "No chapters found" message), for any duration
(here 90). -/
theorem c2_counterexample :
    cliValidate ⟨none, some 90⟩ = Except.error CliError.noChapters ∧
    cliValidate ⟨some [], some 90⟩ = Except.error CliError.noChapters := by
  exact ⟨rfl, rfl⟩

/-- Claim C2 (amended): in the GUI pipeline, metadata without chapters
(absent key or empty list) and with a whole-second duration `n` yields
exactly one chapter row, titled `"Full Video"`, which `start_process`
turns into the single segment `[0, n)`; the CLI script, by contrast,
exits with an error in this situation (see the counterexample). -/
theorem c2_gui_single_segment (m : RawMeta) (n : Nat)
    (hch : m.chapters = none ∨ m.chapters = some [])
    (hd : m.duration = some ((n : ℚ))) :
    start_process_chapters (on_metadata_rows m) =
      [⟨String.toList "Full Video", 0, (n : ℚ)⟩] := by
  have hrows : on_metadata_rows m = [add_row (String.toList "Full Video") 0 ((n : ℚ))] := by
    unfold on_metadata_rows
    rcases hch with hch | hch <;> rw [hch, hd] <;> rfl
  rw [hrows]
  unfold start_process_chapters add_row
  rw [List.map_cons, List.map_nil]
  have hz : parse_time (format_seconds (0 : ℚ)) = 0 := by
    have h := parse_time_format 0
    norm_num at h
    exact h
  have hn : parse_time (format_seconds ((n : ℚ))) = (n : ℚ) := parse_time_format n
  simp only
  rw [hz, hn, sub_zero]

/-- Witness for C2: metadata with no chapters and duration 90 gives the
single segment `{"Full Video", start 0, length 90}`. -/
theorem c2_witness :
    start_process_chapters (on_metadata_rows ⟨none, some 90⟩) =
      [⟨String.toList "Full Video", 0, 90⟩] := by
  have h := c2_gui_single_segment ⟨none, some 90⟩ 90 (Or.inl rfl) (by norm_num)
  norm_num at h
  exact h

/-! ## Claim C7: missing duration -/

/-- Counterexample for C7: the GUI does not treat a missing duration as
a hard error — `on_metadata_fetched` substitutes 0
(`data.get('duration', 0)`) and the pipeline proceeds to build chapter
rows and segments: with one chapter at 0 and no duration it still
produces a (zero-length) segment instead of failing. -/
theorem c7_counterexample :
    on_metadata_rows ⟨some [⟨0, String.toList "A"⟩], none⟩ ≠ [] ∧
    start_process_chapters (on_metadata_rows ⟨some [⟨0, String.toList "A"⟩], none⟩) =
      [⟨String.toList "A", 0, 0⟩] := by
  have hrows : on_metadata_rows ⟨some [⟨0, String.toList "A"⟩], none⟩
      = [add_row (String.toList "A") 0 0] := rfl
  constructor
  · rw [hrows]; simp
  · rw [hrows]
    unfold start_process_chapters add_row
    rw [List.map_cons, List.map_nil]
    have hz : parse_time (format_seconds (0 : ℚ)) = 0 := by
      have h := parse_time_format 0
      norm_num at h
      exact h
    simp only
    rw [hz, sub_zero]

/-- Claim C7 (amended): the CLI script treats a missing (or zero)
duration as fatal — validation never succeeds without one — while the
GUI substitutes 0 for a missing duration and proceeds exactly as it
would for a zero duration, with no error. -/
theorem c7_duration_handling :
    (∀ (m : RawMeta) (r : List Chapter × ℚ), m.duration = none → cliValidate m ≠ Except.ok r) ∧
    (∀ m : RawMeta, m.duration = none →
      on_metadata_rows m = on_metadata_rows ⟨m.chapters, some 0⟩) := by
  constructor
  · intro m r hd
    obtain ⟨och, od⟩ := m
    simp only at hd
    subst hd
    intro h
    simp only [cliValidate] at h
    split at h <;> exact Except.noConfusion h
  · intro m hd
    unfold on_metadata_rows
    rw [hd]
    rfl

/-- Witness for C7: metadata with an empty chapter list and no duration
is rejected by the CLI validation. -/
theorem c7_witness :
    cliValidate ⟨some [], none⟩ ≠ Except.ok ([], 0) :=
  c7_duration_handling.1 ⟨some [], none⟩ ([], 0) rfl

/-! ## Claim C9: totality and case structure of `parse_time` -/

/-- Claim C9: for every input string, `parse_time` returns a value
without raising: the colon-weighted value when the (stripped) string
splits into three or two parseable colon-separated parts, the plain
float value of the string when it has no colon structure, and 0 when
the string is empty or a conversion fails (the caught `ValueError`). -/
theorem c9_parse_time_total :
    ∀ s : Str,
      (s = [] → parse_time s = 0) ∧
      (s ≠ [] → ∀ x y z, splitCh ':' (stripWS s) = [x, y, z] →
        ((∀ a b c, pyFloat x = some a → pyFloat y = some b → pyFloat z = some c →
            parse_time s = a * 3600 + b * 60 + c) ∧
         ((pyFloat x).isNone ∨ (pyFloat y).isNone ∨ (pyFloat z).isNone → parse_time s = 0))) ∧
      (s ≠ [] → ∀ x y, splitCh ':' (stripWS s) = [x, y] →
        ((∀ a b, pyFloat x = some a → pyFloat y = some b → parse_time s = a * 60 + b) ∧
         ((pyFloat x).isNone ∨ (pyFloat y).isNone → parse_time s = 0))) ∧
      (s ≠ [] → (splitCh ':' (stripWS s)).length ≠ 3 →
        (splitCh ':' (stripWS s)).length ≠ 2 → parse_time s = (pyFloat s).getD 0) := by
  intro s
  refine ⟨?_, ?_, ?_, ?_⟩
  · intro h
    rw [parse_time, if_pos h]
  · intro hne x y z hsplit
    constructor
    · intro a b c ha hb hc
      simp only [parse_time, if_neg hne, hsplit]
      simp [List.getD, ha, hb, hc]
    · intro hfail
      simp only [parse_time, if_neg hne, hsplit]
      rcases hx : pyFloat x with _ | a <;> rcases hy : pyFloat y with _ | b <;>
        rcases hz : pyFloat z with _ | c <;>
        simp_all [List.getD]
  · intro hne x y hsplit
    constructor
    · intro a b ha hb
      simp only [parse_time, if_neg hne, hsplit]
      simp [List.getD, ha, hb]
    · intro hfail
      simp only [parse_time, if_neg hne, hsplit]
      rcases hx : pyFloat x with _ | a <;> rcases hy : pyFloat y with _ | b <;>
        simp_all [List.getD]
  · intro hne h3 h2
    simp only [parse_time, if_neg hne]
    rw [if_neg h3, if_neg h2]

/-- Witness for C9: `"01:02:03"` parses as `1*3600 + 2*60 + 3` seconds. -/
theorem c9_witness :
    parse_time (String.toList "01:02:03") = 1 * 3600 + 2 * 60 + 3 := by
  have hx : pyFloat (String.toList "01") = some 1 := by
    rw [show String.toList "01" = pad2 1 from by decide]
    have h := pyFloat_pad2 1
    norm_num at h
    exact h
  have hy : pyFloat (String.toList "02") = some 2 := by
    rw [show String.toList "02" = pad2 2 from by decide]
    have h := pyFloat_pad2 2
    norm_num at h
    exact h
  have hz : pyFloat (String.toList "03") = some 3 := by
    rw [show String.toList "03" = pad2 3 from by decide]
    have h := pyFloat_pad2 3
    norm_num at h
    exact h
  exact ((c9_parse_time_total (String.toList "01:02:03")).2.1 (by decide)
    (String.toList "01") (String.toList "02") (String.toList "03") (by decide)).1
    1 2 3 hx hy hz

/-! ## Claim C10: the format/parse round trip -/

/-- Claim C10: for every non-negative whole number of seconds `n`,
`parse_time (format_seconds n) = n` — rendering a whole-second value as
`HH:MM:SS` and parsing it back is the identity. -/
theorem c10_roundtrip (n : Nat) : parse_time (format_seconds ((n : ℚ))) = (n : ℚ) :=
  parse_time_format n

set_option maxRecDepth 8000

/-! ## Claim C5: the fuzzy tier of the file resolver -/

/-- Counterexample for C5: with no exact match, expected name
`"!!!.mp4"` (normalized key empty) and title hint `"xyz"`, the file
`abc.mp4` is a regular video file whose normalized key `"abc"` contains
the empty expected key, so under the claimed containment rule it would
be the (sole, hence latest-modified) candidate — but the resolver
returns `none`, because an empty normalized key never fires a tier
(`if target_base and ...`). -/
theorem c5_counterexample :
    clean_name (String.toList "!!!.mp4") = [] ∧
    strIn [] (clean_name (String.toList "abc.mp4")) = true ∧
    (⟨String.toList "abc.mp4", true, 0⟩ : DirEntry).isFile = true ∧
    isVideoSuffix (String.toList "abc.mp4") = true ∧
    find_video_file [⟨String.toList "abc.mp4", true, 0⟩]
      (String.toList "!!!.mp4") (String.toList "xyz") = none := by
  refine ⟨by decide, by decide, by decide, by decide, by decide⟩

/-- Claim C5 (amended): when no exact-name match exists, a regular file
with a recognized video suffix is a candidate exactly when a tier
fires, where a tier fires for a *non-empty* normalized key that
contains or is contained in the file's normalized key — first the
expected-name key, or failing that the title-hint key; among the
candidates the resolver returns the name of a most-recently-modified
one, and `none` when there are no candidates.  (The original claim
omitted the non-emptiness requirement on the normalized keys.) -/
theorem c5_fuzzy_resolution (dir : List DirEntry) (e hint : Str)
    (hnoexact : ¬ (e ≠ [] ∧ dir.any (fun f => f.name = e) = true))
    (tb hb : Str) (cands : List DirEntry)
    (htb : tb = clean_name e)
    (hhb : hb = (if hint ≠ [] then clean_name hint else []))
    (hcands : cands = dir.filter (isCandidate tb hb)) :
    (∀ key fc, tierMatch key fc = true ↔
      (key ≠ [] ∧ (strIn key fc = true ∨ strIn fc key = true))) ∧
    (∀ f, isCandidate tb hb f = true ↔
      (f.isFile = true ∧ isVideoSuffix f.name = true ∧
        (tierMatch tb (clean_name f.name) = true ∨ tierMatch hb (clean_name f.name) = true))) ∧
    (∀ f, f ∈ cands ↔ (f ∈ dir ∧ isCandidate tb hb f = true)) ∧
    (cands = [] → find_video_file dir e hint = none) ∧
    (∀ b, maxByMtime cands = some b →
      find_video_file dir e hint = some b.name ∧ b ∈ cands ∧
        ∀ g ∈ cands, g.mtime ≤ b.mtime) := by
  have hfind : find_video_file dir e hint
      = (maxByMtime (dir.filter (isCandidate tb hb))).map (fun b => b.name) := by
    rw [htb, hhb]
    unfold find_video_file
    rw [if_neg hnoexact]
  refine ⟨?_, ?_, ?_, ?_, ?_⟩
  · intro key fc
    simp [tierMatch, List.isEmpty_iff]
  · intro f
    simp [isCandidate, and_assoc]
  · intro f
    rw [hcands]
    exact List.mem_filter
  · intro hnil
    rw [hfind, ← hcands, hnil]
    rfl
  · intro b hmax
    have hspec := maxByMtime_spec hmax
    refine ⟨?_, hspec.1, hspec.2⟩
    rw [hfind, ← hcands, hmax]
    rfl

/-- Witness for C5: with no exact match, the two fuzzy candidates
`My Video.mp4` (mtime 3) and `My  Video.mp4` (mtime 7) normalize to the
same key as the expected `My Video.mkv`, and the resolver returns the
more recently modified one. -/
theorem c5_witness :
    find_video_file
      [⟨String.toList "My Video.mp4", true, 3⟩, ⟨String.toList "My  Video.mp4", true, 7⟩]
      (String.toList "My Video.mkv") [] = some (String.toList "My  Video.mp4") :=
  ((c5_fuzzy_resolution
      [⟨String.toList "My Video.mp4", true, 3⟩, ⟨String.toList "My  Video.mp4", true, 7⟩]
      (String.toList "My Video.mkv") [] (by decide) _ _ _ rfl rfl rfl).2.2.2.2
    ⟨String.toList "My  Video.mp4", true, 7⟩ (by decide)).1

/-! ## Claim C6: the progress parser -/

/-- Counterexample for C6: on the reference line the regular expression
does capture percent `45.3` and ETA `00:12`, and the emitted event's
percent is `"45.3%"` — but the event's ETA string is
`"Remaining: 00:12"` (`f"Remaining: {eta}"`), not the bare `"00:12"`
the claim states. -/
theorem c6_counterexample :
    progressEvent (String.toList "[download]  45.3% of 120.00MiB at 5.00MiB/s ETA 00:12")
      = some (String.toList "45.3%", String.toList "Remaining: 00:12") ∧
    progressEvent (String.toList "[download]  45.3% of 120.00MiB at 5.00MiB/s ETA 00:12")
      ≠ some (String.toList "45.3%", String.toList "00:12") := by
  refine ⟨by decide, by decide⟩

/-- Claim C6 (amended): fed the line
`"[download]  45.3% of 120.00MiB at 5.00MiB/s ETA 00:12"`, the parser
captures percent `45.3` and ETA `00:12` and emits the event
`("45.3%", "Remaining: 00:12")`; any line the pattern does not match —
such as `"[info] writing metadata"` — yields no event (and, the parser
being a total function, no error). -/
theorem c6_progress_events :
    ∀ l : Str,
      (parseProgressLine l = none → progressEvent l = none) ∧
      parseProgressLine (String.toList "[download]  45.3% of 120.00MiB at 5.00MiB/s ETA 00:12")
        = some (String.toList "45.3", String.toList "00:12") ∧
      progressEvent (String.toList "[download]  45.3% of 120.00MiB at 5.00MiB/s ETA 00:12")
        = some (String.toList "45.3%", String.toList "Remaining: 00:12") ∧
      progressEvent (String.toList "[info] writing metadata") = none := by
  intro l
  refine ⟨?_, by decide, by decide, by decide⟩
  intro h
  rw [progressEvent, h]
  rfl

/-- Witness for C6: a plain log line produces no event. -/
theorem c6_witness :
    progressEvent (String.toList "Deleting original file") = none :=
  (c6_progress_events (String.toList "Deleting original file")).1 (by decide)
